import Mathlib

/-!
Verification of the NDJSON streaming reassembler and WebSocket registry
logic of the Ollama SDK server (`src/server.js`, `src/server-activity.js`).

The data handler keeps a string `buffer`, appends each incoming chunk,
splits on `'\n'`, re-buffers the last segment (`lines.pop() || ''`), and
JSON-decodes every remaining segment, skipping blank segments and
decode failures.  We model strings as `List Char`.
-/

set_option maxRecDepth 4096

/-- Whitespace recognized by JavaScript `String.prototype.trim` (ASCII part). -/
def isSpaceJS (c : Char) : Bool :=
  c = ' ' || c = '\t' || c = '\n' || c = '\r' || c = '\x0b' || c = '\x0c'

/-- Model of JavaScript `line.trim()` on our claims' inputs. -/
def jsTrim (s : List Char) : List Char :=
  ((s.dropWhile isSpaceJS).reverse.dropWhile isSpaceJS).reverse

/-- Prepend a character onto the first segment of a split result
(used to state the recursive behaviour of `jsSplit`). -/
def consHeadC (c : Char) : List (List Char) → List (List Char)
  | [] => [[c]]
  | l :: ls => (c :: l) :: ls

/-- Model of JavaScript `s.split('\n')`: always returns at least one
segment; a trailing newline yields a final empty segment. -/
def jsSplit : List Char → List (List Char)
  | [] => [[]]
  | c :: cs => if c = '\n' then [] :: jsSplit cs else consHeadC c (jsSplit cs)

/-- Prepend a whole prefix onto the first segment of a split result. -/
def consHead (pre : List Char) : List (List Char) → List (List Char)
  | [] => [pre]
  | l :: ls => (pre ++ l) :: ls

/-- Model of `lines.pop() || ''`: the last segment, `''` when there is none. -/
def lastD : List (List Char) → List Char
  | [] => []
  | [l] => l
  | _ :: l₂ :: ls => lastD (l₂ :: ls)

/-- One `data` event of the stream handler (`server.js` lines 41–47,
`server-activity.js` lines 155–158): append the chunk to the buffer,
split on newlines, re-buffer the last segment, and hand the complete
segments on for decoding. -/
def feedLines (buf chunk : List Char) : List (List Char) × List Char :=
  let lines := jsSplit (buf ++ chunk)
  (lines.dropLast, lastD lines)

theorem consHeadC_ne_nil (c : Char) (L : List (List Char)) : consHeadC c L ≠ [] := by
  cases L <;> simp [consHeadC]

theorem consHead_ne_nil (pre : List Char) (L : List (List Char)) : consHead pre L ≠ [] := by
  cases L <;> simp [consHead]

theorem jsSplit_ne_nil (s : List Char) : jsSplit s ≠ [] := by
  induction s with
  | nil => simp [jsSplit]
  | cons c cs ih =>
    by_cases hc : c = '\n' <;> simp [jsSplit, hc, consHeadC_ne_nil]

theorem jsSplit_cons_nl (cs : List Char) : jsSplit ('\n' :: cs) = [] :: jsSplit cs := by
  simp [jsSplit]

theorem jsSplit_cons_other (c : Char) (cs : List Char) (hc : c ≠ '\n') :
    jsSplit (c :: cs) = consHeadC c (jsSplit cs) := by
  simp [jsSplit, hc]

theorem consHead_nil_of_ne_nil (L : List (List Char)) (h : L ≠ []) : consHead [] L = L := by
  cases L with
  | nil => exact absurd rfl h
  | cons l ls => simp [consHead]

theorem consHeadC_eq_consHead (c : Char) (L : List (List Char)) :
    consHeadC c L = consHead [c] L := by
  cases L <;> simp [consHeadC, consHead]

theorem lastD_cons_of_ne_nil (l : List Char) (L : List (List Char)) (h : L ≠ []) :
    lastD (l :: L) = lastD L := by
  cases L with
  | nil => exact absurd rfl h
  | cons m ls => rfl

theorem lastD_append_of_ne_nil (A B : List (List Char)) (h : B ≠ []) :
    lastD (A ++ B) = lastD B := by
  induction A with
  | nil => rfl
  | cons a A ih =>
    have hAB : A ++ B ≠ [] := by
      intro hn
      rcases List.append_eq_nil.mp hn with ⟨-, h2⟩
      exact h h2
    rw [List.cons_append, lastD_cons_of_ne_nil a (A ++ B) hAB, ih]

theorem dropLast_cons_of_ne_nil' (a : List Char) (L : List (List Char)) (h : L ≠ []) :
    (a :: L).dropLast = a :: L.dropLast := by
  cases L with
  | nil => exact absurd rfl h
  | cons m ls => rfl

theorem dropLast_append_of_ne_nil' (A B : List (List Char)) (h : B ≠ []) :
    (A ++ B).dropLast = A ++ B.dropLast := by
  induction A with
  | nil => rfl
  | cons a A ih =>
    have hAB : A ++ B ≠ [] := by
      intro hn
      rcases List.append_eq_nil.mp hn with ⟨-, h2⟩
      exact h h2
    rw [List.cons_append, dropLast_cons_of_ne_nil' a (A ++ B) hAB, ih, List.cons_append]

theorem jsSplit_append (s t : List Char) :
    jsSplit (s ++ t) = (jsSplit s).dropLast ++ consHead (lastD (jsSplit s)) (jsSplit t) := by
  induction s with
  | nil =>
    simp [jsSplit, lastD, consHead_nil_of_ne_nil _ (jsSplit_ne_nil t)]
  | cons c cs ih =>
    by_cases hc : c = '\n'
    · subst hc
      have hX := jsSplit_ne_nil cs
      rw [List.cons_append, jsSplit_cons_nl, jsSplit_cons_nl, ih,
        dropLast_cons_of_ne_nil' [] (jsSplit cs) hX,
        lastD_cons_of_ne_nil [] (jsSplit cs) hX, List.cons_append]
    · rw [List.cons_append, jsSplit_cons_other c _ hc, jsSplit_cons_other c _ hc, ih]
      rcases hX : jsSplit cs with _ | ⟨l, X'⟩
      · exact absurd hX (jsSplit_ne_nil cs)
      · rcases X' with _ | ⟨m, X''⟩
        · simp only [List.dropLast_single, List.nil_append, lastD]
          cases hY : jsSplit t with
          | nil => exact absurd hY (jsSplit_ne_nil t)
          | cons y ys => simp [consHead, consHeadC, lastD]
        · simp only [consHeadC]
          have h1 : (l :: m :: X'').dropLast = l :: (m :: X'').dropLast := rfl
          have h2 : ((c :: l) :: m :: X'').dropLast = (c :: l) :: (m :: X'').dropLast := rfl
          have h3 : lastD (l :: m :: X'') = lastD (m :: X'') := rfl
          have h4 : lastD ((c :: l) :: m :: X'') = lastD (m :: X'') := rfl
          rw [h1, h2, h3, h4, List.cons_append, List.cons_append]

theorem lastD_jsSplit_no_newline (s : List Char) : '\n' ∉ lastD (jsSplit s) := by
  induction s with
  | nil => simp [jsSplit, lastD]
  | cons c cs ih =>
    by_cases hc : c = '\n'
    · subst hc
      rw [jsSplit_cons_nl, lastD_cons_of_ne_nil [] (jsSplit cs) (jsSplit_ne_nil cs)]
      exact ih
    · rw [jsSplit_cons_other c _ hc]
      rcases hX : jsSplit cs with _ | ⟨l, X'⟩
      · exact absurd hX (jsSplit_ne_nil cs)
      · rcases X' with _ | ⟨m, X''⟩
        · simp only [consHeadC, lastD]
          rw [hX] at ih
          simp only [lastD] at ih
          intro hmem
          rcases List.mem_cons.mp hmem with h | h
          · exact hc h.symm
          · exact ih h
        · simp only [consHeadC]
          have h4 : lastD ((c :: l) :: m :: X'') = lastD (m :: X'') := rfl
          rw [h4]
          rw [hX] at ih
          have h3 : lastD (l :: m :: X'') = lastD (m :: X'') := rfl
          rw [h3] at ih
          exact ih

theorem jsSplit_of_no_newline (s : List Char) (h : '\n' ∉ s) : jsSplit s = [s] := by
  induction s with
  | nil => rfl
  | cons c cs ih =>
    have hc : c ≠ '\n' := fun he => h (he ▸ List.mem_cons_self c cs)
    have hcs : '\n' ∉ cs := fun hm => h (List.mem_cons_of_mem c hm)
    simp [jsSplit, hc, ih hcs, consHeadC]

theorem feedLines_comp (buf c1 c2 : List Char) :
    (feedLines buf (c1 ++ c2)).1 =
      (feedLines buf c1).1 ++ (feedLines (feedLines buf c1).2 c2).1 ∧
    (feedLines buf (c1 ++ c2)).2 = (feedLines (feedLines buf c1).2 c2).2 := by
  have hassoc : buf ++ (c1 ++ c2) = (buf ++ c1) ++ c2 := (List.append_assoc buf c1 c2).symm
  have hb1 : '\n' ∉ lastD (jsSplit (buf ++ c1)) := lastD_jsSplit_no_newline (buf ++ c1)
  have hsplit2 : jsSplit (lastD (jsSplit (buf ++ c1)) ++ c2) =
      consHead (lastD (jsSplit (buf ++ c1))) (jsSplit c2) := by
    rw [jsSplit_append, jsSplit_of_no_newline _ hb1]
    simp [lastD]
  have hmain : jsSplit (buf ++ (c1 ++ c2)) =
      (jsSplit (buf ++ c1)).dropLast ++ consHead (lastD (jsSplit (buf ++ c1))) (jsSplit c2) := by
    rw [hassoc, jsSplit_append]
  constructor
  · show (jsSplit (buf ++ (c1 ++ c2))).dropLast =
      (jsSplit (buf ++ c1)).dropLast ++ (jsSplit (lastD (jsSplit (buf ++ c1)) ++ c2)).dropLast
    rw [hmain, hsplit2,
      dropLast_append_of_ne_nil' _ _ (consHead_ne_nil _ _)]
  · show lastD (jsSplit (buf ++ (c1 ++ c2))) =
      lastD (jsSplit (lastD (jsSplit (buf ++ c1)) ++ c2))
    rw [hmain, hsplit2, lastD_append_of_ne_nil _ _ (consHead_ne_nil _ _)]

/-! ### Model of `JSON.parse`

The data handler calls the JavaScript builtin `JSON.parse` on each
complete segment.  We embed the JSON grammar (ECMA-404, the grammar
`JSON.parse` accepts): whitespace, `null`, booleans, numbers (kept as
their validated lexeme), strings with escapes, arrays, and objects.
Fuelled recursion keeps every function total; the top-level fuel
`4 * length + 16` exceeds any possible call depth. -/

inductive Json where
  | null : Json
  | bool (b : Bool) : Json
  | num (lex : List Char) : Json
  | str (s : List Char) : Json
  | arr (elems : List Json) : Json
  | obj (fields : List (List Char × Json)) : Json

/-- JSON-grammar whitespace (the four characters `JSON.parse` skips). -/
def isJsonWs (c : Char) : Bool :=
  c = ' ' || c = '\t' || c = '\n' || c = '\r'

def skipWs : List Char → List Char
  | [] => []
  | c :: cs => if isJsonWs c then skipWs cs else c :: cs

def hexVal (c : Char) : Option Nat :=
  if '0' ≤ c ∧ c ≤ '9' then some (c.toNat - '0'.toNat)
  else if 'a' ≤ c ∧ c ≤ 'f' then some (c.toNat - 'a'.toNat + 10)
  else if 'A' ≤ c ∧ c ≤ 'F' then some (c.toNat - 'A'.toNat + 10)
  else none

/-- Body of a JSON string after the opening quote: plain characters,
backslash escapes, and `\uXXXX`; unescaped control characters are
rejected, as `JSON.parse` does. -/
def parseStrBody : Nat → List Char → Option (List Char × List Char)
  | 0, _ => none
  | _ + 1, [] => none
  | fuel + 1, c :: cs =>
    if c = '"' then some ([], cs)
    else if c = '\\' then
      match cs with
      | [] => none
      | e :: cs2 =>
        if e = '"' ∨ e = '\\' ∨ e = '/' then
          (parseStrBody fuel cs2).map (fun r => (e :: r.1, r.2))
        else if e = 'b' then (parseStrBody fuel cs2).map (fun r => ('\x08' :: r.1, r.2))
        else if e = 'f' then (parseStrBody fuel cs2).map (fun r => ('\x0c' :: r.1, r.2))
        else if e = 'n' then (parseStrBody fuel cs2).map (fun r => ('\n' :: r.1, r.2))
        else if e = 'r' then (parseStrBody fuel cs2).map (fun r => ('\r' :: r.1, r.2))
        else if e = 't' then (parseStrBody fuel cs2).map (fun r => ('\t' :: r.1, r.2))
        else if e = 'u' then
          match cs2 with
          | h1 :: h2 :: h3 :: h4 :: cs3 =>
            match hexVal h1, hexVal h2, hexVal h3, hexVal h4 with
            | some a, some b, some c2, some d =>
              (parseStrBody fuel cs3).map
                (fun r => (Char.ofNat (((a * 16 + b) * 16 + c2) * 16 + d) :: r.1, r.2))
            | _, _, _, _ => none
          | _ => none
        else none
    else if c.toNat < 32 then none
    else (parseStrBody fuel cs).map (fun r => (c :: r.1, r.2))

/-- Integer part of a JSON number: `0`, or a nonzero digit followed by digits. -/
def parseIntPart : List Char → Option (List Char × List Char)
  | [] => none
  | c :: r =>
    if c = '0' then some ([c], r)
    else if c.isDigit then some (c :: r.takeWhile Char.isDigit, r.dropWhile Char.isDigit)
    else none

/-- Optional fraction part `.digits` of a JSON number. -/
def parseFrac : List Char → Option (List Char × List Char)
  | [] => some ([], [])
  | c :: r =>
    if c = '.' then
      let ds := r.takeWhile Char.isDigit
      if ds.isEmpty then none else some (c :: ds, r.dropWhile Char.isDigit)
    else some ([], c :: r)

/-- Optional exponent part `e[+-]digits` of a JSON number. -/
def parseExp : List Char → Option (List Char × List Char)
  | [] => some ([], [])
  | c :: r =>
    if c = 'e' ∨ c = 'E' then
      let p := match r with
        | '+' :: t => (['+'], t)
        | '-' :: t => (['-'], t)
        | _ => ([], r)
      let ds := p.2.takeWhile Char.isDigit
      if ds.isEmpty then none else some (c :: p.1 ++ ds, p.2.dropWhile Char.isDigit)
    else some ([], c :: r)

/-- A JSON number; the validated lexeme is retained. -/
def parseNum (s : List Char) : Option (List Char × List Char) :=
  let p := match s with
    | '-' :: r => (['-'], r)
    | _ => ([], s)
  match parseIntPart p.2 with
  | none => none
  | some (ip, s2) =>
    match parseFrac s2 with
    | none => none
    | some (fp, s3) =>
      match parseExp s3 with
      | none => none
      | some (ep, s4) => some (p.1 ++ ip ++ fp ++ ep, s4)

mutual

def parseVal : Nat → List Char → Option (Json × List Char)
  | 0, _ => none
  | fuel + 1, s0 =>
    match skipWs s0 with
    | [] => none
    | c :: cs =>
      if c = 'n' then
        match cs with
        | 'u' :: 'l' :: 'l' :: r => some (Json.null, r)
        | _ => none
      else if c = 't' then
        match cs with
        | 'r' :: 'u' :: 'e' :: r => some (Json.bool true, r)
        | _ => none
      else if c = 'f' then
        match cs with
        | 'a' :: 'l' :: 's' :: 'e' :: r => some (Json.bool false, r)
        | _ => none
      else if c = '"' then
        (parseStrBody (cs.length + 1) cs).map (fun r => (Json.str r.1, r.2))
      else if c = '-' ∨ c.isDigit then
        (parseNum (c :: cs)).map (fun r => (Json.num r.1, r.2))
      else if c = '\x7b' then
        (parseMembers fuel cs).map (fun r => (Json.obj r.1, r.2))
      else if c = '[' then
        (parseElems fuel cs).map (fun r => (Json.arr r.1, r.2))
      else none

def parseElems : Nat → List Char → Option (List Json × List Char)
  | 0, _ => none
  | fuel + 1, s =>
    match skipWs s with
    | ']' :: r => some ([], r)
    | s1 => parseElemsNE fuel s1

def parseElemsNE : Nat → List Char → Option (List Json × List Char)
  | 0, _ => none
  | fuel + 1, s =>
    match parseVal fuel s with
    | none => none
    | some (v, r) =>
      match skipWs r with
      | ',' :: r2 =>
        match parseElemsNE fuel r2 with
        | some (vs, r3) => some (v :: vs, r3)
        | none => none
      | ']' :: r2 => some ([v], r2)
      | _ => none

def parseMembers : Nat → List Char → Option (List (List Char × Json) × List Char)
  | 0, _ => none
  | fuel + 1, s =>
    match skipWs s with
    | '\x7d' :: r => some ([], r)
    | s1 => parseMembersNE fuel s1

def parseMembersNE : Nat → List Char → Option (List (List Char × Json) × List Char)
  | 0, _ => none
  | fuel + 1, s =>
    match skipWs s with
    | '"' :: cs =>
      match parseStrBody (cs.length + 1) cs with
      | none => none
      | some (key, r) =>
        match skipWs r with
        | ':' :: r2 =>
          match parseVal fuel r2 with
          | none => none
          | some (v, r3) =>
            match skipWs r3 with
            | ',' :: r4 =>
              match parseMembersNE fuel r4 with
              | some (ms, r5) => some ((key, v) :: ms, r5)
              | none => none
            | '\x7d' :: r4 => some ([(key, v)], r4)
            | _ => none
        | _ => none
    | _ => none

end

/-- Model of `JSON.parse(s)`: parse one value, allow trailing whitespace
only; `none` models a thrown `SyntaxError`. -/
def jsonParse (s : List Char) : Option Json :=
  match parseVal (4 * s.length + 16) s with
  | some (v, r) => if (skipWs r).isEmpty then some v else none
  | none => none

example : jsonParse ("\x7b\"done\":true\x7d".toList) =
    some (Json.obj [("done".toList, Json.bool true)]) := by rfl

example : jsonParse (" garbage ".toList) = none := by rfl

example : jsonParse ("\x7b\"response\":\"x\"\x7d".toList) =
    some (Json.obj [("response".toList, Json.str "x".toList)]) := by rfl

example : jsonParse ("[1,2.5e3,null,\"a\\n\"]".toList) =
    some (Json.arr [Json.num "1".toList, Json.num "2.5e3".toList, Json.null,
      Json.str "a\n".toList]) := by rfl

/-! ### The record pipeline of the data handler

`server-activity.js` lines 160–192: each complete segment is skipped
when blank (`!line.trim()`), otherwise `JSON.parse`d; a decode failure
is logged and skipped, and the loop runs to the end of the segment
list.  `server.js` lines 48–67 share the blank-skip and decode-skip
behaviour but additionally `return` out of the loop at a record with
truthy `done` (lines 58–62); that variant is modelled separately by
`srvProcess` further down. -/

/-- Decode one complete segment: `if (!line.trim()) continue;` then
`JSON.parse(line)` with failures skipped. -/
def decodeLine (line : List Char) : Option Json :=
  if jsTrim line = [] then none else jsonParse line

/-- Decode every complete segment in order, dropping skipped ones: the
segment loop of `server-activity.js` lines 160–192, which has no early
return.  The `server.js` loop, which returns at a truthy `done` record,
is `srvProcess` below. -/
def processLines (lines : List (List Char)) : List Json :=
  lines.filterMap decodeLine

/-- Whether a segment is reported to the diagnostic sink
(`console.error("Bad JSON from Ollama:", line)`): non-blank but undecodable. -/
def decodeFail (line : List Char) : Bool :=
  !(jsTrim line).isEmpty && (jsonParse line).isNone

/-- One `feed` of the reassembler at the Record level, as implemented
by `server-activity.js`'s handler: the decoded Records of all complete
segments, and the re-buffered tail. -/
def feedRecords (buf chunk : List Char) : List Json × List Char :=
  let r := feedLines buf chunk
  (processLines r.1, r.2)

/-- Feed a list of chunks in order, concatenating the emitted Records. -/
def feedMany : List Char → List (List Char) → List Json × List Char
  | buf, [] => ([], buf)
  | buf, c :: cs =>
    let r := feedRecords buf c
    let rest := feedMany r.2 cs
    (r.1 ++ rest.1, rest.2)

/-- Concatenation of a chunk sequence into one byte sequence. -/
def concatChunks : List (List Char) → List Char
  | [] => []
  | c :: cs => c ++ concatChunks cs

theorem feedRecords_comp (buf c1 c2 : List Char) :
    (feedRecords buf (c1 ++ c2)).1 =
      (feedRecords buf c1).1 ++ (feedRecords (feedRecords buf c1).2 c2).1 ∧
    (feedRecords buf (c1 ++ c2)).2 = (feedRecords (feedRecords buf c1).2 c2).2 := by
  have h := feedLines_comp buf c1 c2
  refine ⟨?_, h.2⟩
  show processLines (feedLines buf (c1 ++ c2)).1 = _
  rw [h.1]
  exact List.filterMap_append _ _ decodeLine

theorem feedRecords_buf_no_newline (buf chunk : List Char) :
    '\n' ∉ (feedRecords buf chunk).2 :=
  lastD_jsSplit_no_newline (buf ++ chunk)

theorem feedMany_eq_feedRecords_concat (chunks : List (List Char)) (buf : List Char)
    (h : '\n' ∉ buf) : feedMany buf chunks = feedRecords buf (concatChunks chunks) := by
  induction chunks generalizing buf with
  | nil =>
    have hsplit : jsSplit (buf ++ []) = [buf] := by
      rw [List.append_nil]; exact jsSplit_of_no_newline buf h
    have h1 : feedRecords buf [] = ([], buf) := by
      simp only [feedRecords, feedLines, hsplit]
      rfl
    show ([], buf) = feedRecords buf (concatChunks [])
    rw [show concatChunks [] = [] from rfl, h1]
  | cons c cs ih =>
    have hb : '\n' ∉ (feedRecords buf c).2 := feedRecords_buf_no_newline buf c
    have hcomp := feedRecords_comp buf c (concatChunks cs)
    show ((feedRecords buf c).1 ++ (feedMany (feedRecords buf c).2 cs).1,
        (feedMany (feedRecords buf c).2 cs).2) = feedRecords buf (c ++ concatChunks cs)
    rw [ih _ hb]
    exact Prod.ext hcomp.1.symm hcomp.2.symm

/-- First chunk of the spec's split-mid-record example. -/
def chunkRespA : List Char := "\x7b\"resp".toList

/-- Second chunk of the spec's split-mid-record example. -/
def chunkRespB : List Char := "onse\":\"x\"\x7d\n".toList

/-- The Record decoded from the reassembled example line. -/
def recRespX : Json := Json.obj [("response".toList, Json.str "x".toList)]

/-- C1 (amended): split-invariance holds of the buffering-and-decode
pipeline of `server-activity.js`'s handler, which decodes every
complete segment: for every byte sequence, feeding it as one single
chunk produces the same ordered sequence of decoded Records (and the
same final Buffer) as feeding it split into arbitrarily many chunks at
arbitrary byte offsets; in particular, feeding `'{"resp'` then
`'onse":"x"}\n'` as two chunks yields exactly the one Record
`{response:"x"}`, identical to feeding the concatenation as one chunk.
As originally stated the claim fails for the `server.js` handler, whose
loop returns at a truthy `done` record: see
`C1_split_invariance_cex`. -/
theorem C1_split_invariance :
    (∀ chunks : List (List Char),
      feedMany [] chunks = feedRecords [] (concatChunks chunks)) ∧
    feedMany [] [chunkRespA, chunkRespB] = ([recRespX], []) ∧
    feedRecords [] (chunkRespA ++ chunkRespB) = ([recRespX], []) := by
  refine ⟨fun chunks => feedMany_eq_feedRecords_concat chunks [] (by simp), ?_, ?_⟩
  · rfl
  · rfl

/-- C3: Buffer invariant under feed: after the reassembler processes any
chunk, the Buffer holds no newline (hence zero or one incomplete line),
because the last segment of the newline split always becomes the new
Buffer value, even when that segment is empty. -/
theorem C3_buffer_invariant :
    (∀ buf chunk : List Char,
      (feedLines buf chunk).2 = lastD (jsSplit (buf ++ chunk)) ∧
      '\n' ∉ (feedLines buf chunk).2) ∧
    (feedLines [] ("a\n".toList)).2 = [] := by
  refine ⟨fun buf chunk => ⟨rfl, lastD_jsSplit_no_newline (buf ++ chunk)⟩, rfl⟩

/-- The malformed middle segment of the spec's recovery example. -/
def lineGarbage : List Char := " garbage ".toList

/-- The spec's recovery example chunk: well-formed, malformed, well-formed. -/
def chunkMixed : List Char :=
  "\x7b\"response\":\"a\"\x7d\n garbage \n\x7b\"response\":\"b\"\x7d\n".toList

/-- The Record `{response:"a"}`. -/
def recRespA : Json := Json.obj [("response".toList, Json.str "a".toList)]

/-- The Record `{response:"b"}`. -/
def recRespB : Json := Json.obj [("response".toList, Json.str "b".toList)]

theorem feedMany_records_eq_split_decode (chunks : List (List Char)) :
    (feedMany [] chunks).1 = (jsSplit (concatChunks chunks)).dropLast.filterMap decodeLine := by
  rw [feedMany_eq_feedRecords_concat chunks [] (by simp)]
  show processLines (feedLines [] (concatChunks chunks)).1 = _
  simp [feedLines, processLines]

/-! ### The end-of-data flush

`server.js` lines 70–83 / `server-activity.js` lines 195–209: on `end`,
when the remaining buffer is non-blank it is `JSON.parse`d; failures are
logged; the decoded Record's `done` field drives the terminal message. -/

/-- The Record decoded at flush time: blank buffer yields nothing,
otherwise the result of `JSON.parse` (a failure is reported and yields
nothing). -/
def flushRecord (buf : List Char) : Option Json :=
  if jsTrim buf = [] then none else jsonParse buf

/-- C2: flush() contract: at end-of-data the reassembler operates on the
remaining Buffer; blank content emits nothing, otherwise a JSON decode
is attempted, emitting the decoded Record (of whatever shape) on success
and reporting non-fatally on failure; `'{"done":true}'` with no trailing
newline yields that Record. -/
theorem C2_flush_contract :
    flushRecord [] = none ∧
    flushRecord ("  \t ".toList) = none ∧
    flushRecord ("\x7b\"done\":true\x7d".toList) =
      some (Json.obj [("done".toList, Json.bool true)]) ∧
    flushRecord ("\x7b\"response\":\"x\"\x7d".toList) = some recRespX ∧
    flushRecord ("garbage".toList) = none ∧
    decodeFail ("garbage".toList) = true ∧
    decodeFail ("  \t ".toList) = false :=
  ⟨rfl, rfl, rfl, rfl, rfl, rfl, rfl⟩

/-! ### The consuming handler

`server-activity.js` lines 163–188: each decoded Record `d` is checked
for a truthy `d.response` (forward a `stream` frame with the content)
and then, independently, for a truthy `d.done` (send the `stream_end`
frame); lines 211–217: a stream `error` event sends a distinct `error`
frame.  JavaScript member access and truthiness are embedded below. -/

def respKey : List Char := "response".toList

def doneKey : List Char := "done".toList

/-- Whether a JSON number lexeme denotes zero (all mantissa digits 0). -/
def numIsZero (lex : List Char) : Bool :=
  (lex.takeWhile (fun c => !(c = 'e' || c = 'E'))).all (fun c => !c.isDigit || c = '0')

/-- JavaScript member access `j[key]` on a decoded JSON value:
`undefined` (`none`) on non-objects; on duplicate keys the last wins,
as `JSON.parse` builds the object left to right. -/
def getField (j : Json) (key : List Char) : Option Json :=
  match j with
  | Json.obj fields => (fields.reverse.find? (fun p => p.1 = key)).map Prod.snd
  | _ => none

/-- JavaScript truthiness of a possibly-undefined JSON value. -/
def truthy : Option Json → Bool
  | none => false
  | some Json.null => false
  | some (Json.bool b) => b
  | some (Json.num lex) => !(numIsZero lex)
  | some (Json.str s) => !s.isEmpty
  | some (Json.arr _) => true
  | some (Json.obj _) => true

/-- Outbound WebSocket frames of the chat handler. -/
inductive OutMsg where
  | stream (content : Json)
  | streamEnd
  | errorMsg

/-- The two independent checks of the handler body:
`if (d.response) send stream; if (d.done) send stream_end`. -/
def emitActions (d : Json) : List OutMsg :=
  (if truthy (getField d respKey) then
    [OutMsg.stream ((getField d respKey).getD Json.null)] else []) ++
  (if truthy (getField d doneKey) then [OutMsg.streamEnd] else [])

/-- Frames produced by one complete segment. -/
def lineOut (line : List Char) : List OutMsg :=
  match decodeLine line with
  | none => []
  | some d => emitActions d

/-- One `data` event of the full handler: new buffer and frames sent. -/
def chunkOut (buf chunk : List Char) : List Char × List OutMsg :=
  let r := feedLines buf chunk
  (r.2, (r.1.map lineOut).flatten)

/-- The `end` event of the handler: only a decoded `done` Record sends
the terminal frame. -/
def flushOut (buf : List Char) : List OutMsg :=
  if jsTrim buf = [] then []
  else
    match jsonParse buf with
    | some d => if truthy (getField d doneKey) then [OutMsg.streamEnd] else []
    | none => []

/-- Events delivered by the upstream response body. -/
inductive Ev where
  | data (chunk : List Char)
  | eof
  | fail
deriving DecidableEq

/-- Reaction of the handler to one stream event. -/
def stepEv (buf : List Char) : Ev → List Char × List OutMsg
  | Ev.data c => chunkOut buf c
  | Ev.eof => (buf, flushOut buf)
  | Ev.fail => (buf, [OutMsg.errorMsg])

/-- Drive the handler over a sequence of stream events. -/
def runEv : List Char → List Ev → List Char × List OutMsg
  | buf, [] => (buf, [])
  | buf, e :: es =>
    let r := stepEv buf e
    let rest := runEv r.1 es
    (rest.1, r.2 ++ rest.2)

/-- The chunk carrying a terminal Record followed by a content Record. -/
def chunkDoneThenResp : List Char :=
  "\x7b\"done\":true\x7d\n\x7b\"response\":\"y\"\x7d\n".toList

/-- The Record `{done:true}`. -/
def recDone : Json := Json.obj [("done".toList, Json.bool true)]

/-- The Record `{response:"y"}`. -/
def recRespY : Json := Json.obj [("response".toList, Json.str "y".toList)]

/-- C4 (violated by the code): evaluating `server-activity.js`'s data
handler on a chunk whose first segment is `{"done":true}` shows that the
following segment `{"response":"y"}` is still decoded and its content
forwarded as a `stream` frame after the terminal `stream_end` frame —
raw data after the `done` Record is neither discarded nor left
undecoded. -/
theorem C4_done_termination_violated :
    (chunkOut [] chunkDoneThenResp).2 =
      [OutMsg.streamEnd, OutMsg.stream (Json.str "y".toList)] ∧
    (feedRecords [] chunkDoneThenResp).1 = [recDone, recRespY] :=
  ⟨rfl, rfl⟩

/-! ### The `server.js` segment loop

`server.js` lines 48–67 differ from `server-activity.js`'s loop in one
point: after a decoded record with truthy `done` the handler sends the
terminal message, closes the socket and `return`s (lines 58–62),
aborting the loop, so the remaining complete segments of that chunk are
never decoded.  The buffer was already reassigned before the loop, and
the `data` listener stays attached, so segments arriving in later
chunks are processed again by a fresh run of the handler body. -/

/-- Records decoded by one run of the `server.js` segment loop: blank
and undecodable segments are skipped, and the loop stops right after
the first record whose `done` field is truthy, dropping the rest. -/
def srvProcess : List (List Char) → List Json
  | [] => []
  | l :: ls =>
    match decodeLine l with
    | none => srvProcess ls
    | some d => if truthy (getField d doneKey) then [d] else d :: srvProcess ls

/-- One `data` event of the `server.js` handler at the Record level:
the records its loop decodes, and the re-buffered tail. -/
def srvStep (buf chunk : List Char) : List Json × List Char :=
  let r := feedLines buf chunk
  (srvProcess r.1, r.2)

/-- Feed a chunk list to the `server.js` handler in order (the listener
stays attached after a `done` record, so every chunk is processed). -/
def srvFeedMany : List Char → List (List Char) → List Json × List Char
  | buf, [] => ([], buf)
  | buf, c :: cs =>
    let r := srvStep buf c
    let rest := srvFeedMany r.2 cs
    (r.1 ++ rest.1, rest.2)

theorem srvProcess_skip_undecodable (g : List Char) (hg : decodeLine g = none)
    (pre post : List (List Char)) :
    srvProcess (pre ++ g :: post) = srvProcess (pre ++ post) := by
  induction pre with
  | nil => simp [srvProcess, hg]
  | cons l pre ih =>
    show srvProcess (l :: (pre ++ g :: post)) = srvProcess (l :: (pre ++ post))
    cases hd : decodeLine l with
    | none => simp [srvProcess, hd, ih]
    | some d =>
      by_cases ht : truthy (getField d doneKey) = true
      · simp [srvProcess, hd, ht]
      · simp [srvProcess, hd, ht, ih]

theorem srvProcess_prefix_of_processLines (ls : List (List Char)) : srvProcess ls <+: processLines ls := by
  induction ls with
  | nil => exact List.prefix_refl _
  | cons l ls ih =>
    cases hd : decodeLine l with
    | none =>
      have h1 : srvProcess (l :: ls) = srvProcess ls := by simp [srvProcess, hd]
      have h2 : processLines (l :: ls) = processLines ls := by
        simp [processLines, List.filterMap_cons, hd]
      rw [h1, h2]
      exact ih
    | some d =>
      have h2 : processLines (l :: ls) = d :: processLines ls := by
        simp [processLines, List.filterMap_cons, hd]
      by_cases ht : truthy (getField d doneKey) = true
      · have h1 : srvProcess (l :: ls) = [d] := by simp [srvProcess, hd, ht]
        rw [h1, h2]
        exact ⟨processLines ls, rfl⟩
      · have h1 : srvProcess (l :: ls) = d :: srvProcess ls := by simp [srvProcess, hd, ht]
        rw [h1, h2]
        obtain ⟨t, htt⟩ := ih
        exact ⟨t, by rw [List.cons_append, htt]⟩

theorem srvProcess_eq_of_no_done (ls : List (List Char))
    (h : ∀ d ∈ processLines ls, truthy (getField d doneKey) = false) :
    srvProcess ls = processLines ls := by
  induction ls with
  | nil => rfl
  | cons l ls ih =>
    cases hd : decodeLine l with
    | none =>
      have h2 : processLines (l :: ls) = processLines ls := by
        simp [processLines, List.filterMap_cons, hd]
      have h1 : srvProcess (l :: ls) = srvProcess ls := by simp [srvProcess, hd]
      rw [h2] at h
      rw [h1, h2]
      exact ih h
    | some d =>
      have h2 : processLines (l :: ls) = d :: processLines ls := by
        simp [processLines, List.filterMap_cons, hd]
      rw [h2] at h
      have hdone : truthy (getField d doneKey) = false := h d (List.mem_cons_self d _)
      have h1 : srvProcess (l :: ls) = d :: srvProcess ls := by
        simp [srvProcess, hd, hdone]
      rw [h1, h2]
      exact congrArg (d :: ·) (ih fun d' hd' => h d' (List.mem_cons_of_mem d hd'))

theorem srvFeedMany_sub_feedMany (chunks : List (List Char)) (buf : List Char) :
    (srvFeedMany buf chunks).2 = (feedMany buf chunks).2 ∧
    ((srvFeedMany buf chunks).1).Sublist (feedMany buf chunks).1 := by
  induction chunks generalizing buf with
  | nil => exact ⟨rfl, List.Sublist.refl _⟩
  | cons c cs ih =>
    obtain ⟨hbuf, hsub⟩ := ih (feedLines buf c).2
    refine ⟨hbuf, ?_⟩
    show (srvProcess (feedLines buf c).1 ++ (srvFeedMany (feedLines buf c).2 cs).1).Sublist
      (processLines (feedLines buf c).1 ++ (feedMany (feedLines buf c).2 cs).1)
    exact List.Sublist.append (srvProcess_prefix_of_processLines _).sublist hsub

theorem srvFeedMany_eq_of_no_done (chunks : List (List Char)) (buf : List Char)
    (h : ∀ d ∈ (feedMany buf chunks).1, truthy (getField d doneKey) = false) :
    (srvFeedMany buf chunks).1 = (feedMany buf chunks).1 := by
  induction chunks generalizing buf with
  | nil => rfl
  | cons c cs ih =>
    have hfm : (feedMany buf (c :: cs)).1 =
        processLines (feedLines buf c).1 ++ (feedMany (feedLines buf c).2 cs).1 := rfl
    rw [hfm] at h
    have h1 : ∀ d ∈ processLines (feedLines buf c).1, truthy (getField d doneKey) = false :=
      fun d hd => h d (List.mem_append_left _ hd)
    have h2 : ∀ d ∈ (feedMany (feedLines buf c).2 cs).1,
        truthy (getField d doneKey) = false :=
      fun d hd => h d (List.mem_append_right _ hd)
    show srvProcess (feedLines buf c).1 ++ (srvFeedMany (feedLines buf c).2 cs).1 = _
    rw [hfm, srvProcess_eq_of_no_done _ h1, ih _ h2]

/-- The terminal-record chunk alone: first half of the counterexample split. -/
def chunkDone1 : List Char := "\x7b\"done\":true\x7d\n".toList

/-- The content-record chunk alone: second half of the counterexample split. -/
def chunkRespY2 : List Char := "\x7b\"response\":\"y\"\x7d\n".toList

/-- C1 counterexample: the `server.js` handler cited by the claim is not
split-invariant.  The bytes `'{"done":true}\n{"response":"y"}\n'` fed
as one single chunk decode only the `done` Record, because the loop
returns before reaching the second segment; the same bytes fed as two
chunks decode both Records, because the still-attached listener
processes the later chunk. -/
theorem C1_split_invariance_cex :
    chunkDoneThenResp = chunkDone1 ++ chunkRespY2 ∧
    (srvFeedMany [] [chunkDoneThenResp]).1 = [recDone] ∧
    (srvFeedMany [] [chunkDone1, chunkRespY2]).1 = [recDone, recRespY] ∧
    (srvFeedMany [] [chunkDoneThenResp]).1 ≠ (srvFeedMany [] [chunkDone1, chunkRespY2]).1 := by
  refine ⟨rfl, rfl, rfl, ?_⟩
  intro h
  rw [show (srvFeedMany [] [chunkDoneThenResp]).1 = [recDone] from rfl,
    show (srvFeedMany [] [chunkDone1, chunkRespY2]).1 = [recDone, recRespY] from rfl] at h
  have hlen := congrArg List.length h
  simp at hlen

/-- C5: Per-line decode failure is recovered locally and never aborts the
feed, in both handlers: deleting the undecodable `' garbage '` segment
never changes the output of the `server.js` loop (its early return
concerns `done` records, not decode failures) nor of the
`server-activity.js` loop; a blank non-final segment is skipped with no
emission and no report, a non-blank undecodable segment is skipped and
reported; the mixed example chunk yields exactly `{response:"a"}` then
`{response:"b"}` under both loops. -/
theorem C5_decode_failure_local :
    (∀ pre post : List (List Char),
      srvProcess (pre ++ lineGarbage :: post) = srvProcess (pre ++ post)) ∧
    (∀ pre post : List (List Char),
      processLines (pre ++ lineGarbage :: post) = processLines pre ++ processLines post) ∧
    (srvStep [] chunkMixed).1 = [recRespA, recRespB] ∧
    feedRecords [] chunkMixed = ([recRespA, recRespB], []) ∧
    decodeFail lineGarbage = true ∧
    decodeFail ("   ".toList) = false ∧
    decodeLine ("   ".toList) = none := by
  refine ⟨srvProcess_skip_undecodable lineGarbage rfl, fun pre post => ?_,
    rfl, rfl, rfl, rfl, rfl⟩
  have hg : decodeLine lineGarbage = none := rfl
  simp [processLines, List.filterMap_append, List.filterMap_cons, hg]

/-- C6 counterexample: the claim that `server.js`'s emissions equal the
full in-order decode of the newline split fails on the single chunk
`'{"done":true}\n{"response":"y"}\n'`: the loop emits only the `done`
Record, while the split decodes two Records. -/
theorem C6_emission_order_cex :
    (srvFeedMany [] [chunkDoneThenResp]).1 = [recDone] ∧
    (jsSplit (concatChunks [chunkDoneThenResp])).dropLast.filterMap decodeLine =
      [recDone, recRespY] ∧
    (srvFeedMany [] [chunkDoneThenResp]).1 ≠
      (jsSplit (concatChunks [chunkDoneThenResp])).dropLast.filterMap decodeLine := by
  refine ⟨rfl, rfl, ?_⟩
  intro h
  rw [show (srvFeedMany [] [chunkDoneThenResp]).1 = [recDone] from rfl,
    show (jsSplit (concatChunks [chunkDoneThenResp])).dropLast.filterMap decodeLine =
      [recDone, recRespY] from rfl] at h
  have hlen := congrArg List.length h
  simp at hlen

/-- C6 (amended): emission-order preservation for `server.js`: the
Records emitted by feeding any chunk sequence in order form an
order-preserving subsequence of the in-order decode of the newline
split of the concatenated input — chunks are processed strictly in the
order fed and segments within a chunk first to last — and equal the
full split decode whenever no decoded Record has a truthy `done` field;
the early return at a `done` record drops the remaining segments of
that chunk only (`C6_emission_order_cex`).  On the mixed example chunk
the emissions equal the full split decode. -/
theorem C6_emission_order :
    (∀ chunks : List (List Char),
      ((srvFeedMany [] chunks).1).Sublist
        ((jsSplit (concatChunks chunks)).dropLast.filterMap decodeLine)) ∧
    (∀ chunks : List (List Char),
      (∀ d ∈ (jsSplit (concatChunks chunks)).dropLast.filterMap decodeLine,
          truthy (getField d doneKey) = false) →
        (srvFeedMany [] chunks).1 =
          (jsSplit (concatChunks chunks)).dropLast.filterMap decodeLine) ∧
    (srvFeedMany [] [chunkMixed]).1 = [recRespA, recRespB] ∧
    (jsSplit (concatChunks [chunkMixed])).dropLast.filterMap decodeLine =
      [recRespA, recRespB] := by
  refine ⟨fun chunks => ?_, fun chunks h => ?_, rfl, rfl⟩
  · have hb := (srvFeedMany_sub_feedMany chunks []).2
    rwa [feedMany_records_eq_split_decode] at hb
  · rw [← feedMany_records_eq_split_decode chunks] at h
    rw [srvFeedMany_eq_of_no_done chunks [] h, feedMany_records_eq_split_decode]

/-- Witness for C6 at a concrete input: the mixed example chunk decodes
no `done` Record, so the `server.js` emissions equal the full in-order
decode of the newline split. -/
theorem C6_emission_order_witness :
    (srvFeedMany [] [chunkMixed]).1 =
      (jsSplit (concatChunks [chunkMixed])).dropLast.filterMap decodeLine :=
  C6_emission_order.2.1 [chunkMixed] (by
    rw [show (jsSplit (concatChunks [chunkMixed])).dropLast.filterMap decodeLine =
      [recRespA, recRespB] from rfl]
    intro d hd
    rcases List.mem_cons.mp hd with rfl | hd2
    · rfl
    · rcases List.mem_cons.mp hd2 with rfl | hd3
      · rfl
      · exact absurd hd3 (List.not_mem_nil d))

/-- A Record carrying both a content fragment and the terminal marker,
plus an unrecognized key. -/
def lineBoth : List Char :=
  "\x7b\"response\":\"hi\",\"done\":true,\"extra\":1\x7d".toList

/-- C7: Independent dual shape check: the handler checks `response`
first and then, independently, `done`; a Record carrying both a
`response` string and `done: true` has its content forwarded and also
triggers terminal handling, with unrecognized keys ignored; in general
each of the two frames appears exactly when its field is truthy,
independent of the other. -/
theorem C7_dual_shape_check :
    lineOut lineBoth = [OutMsg.stream (Json.str "hi".toList), OutMsg.streamEnd] ∧
    (∀ d : Json, OutMsg.streamEnd ∈ emitActions d ↔ truthy (getField d doneKey) = true) ∧
    (∀ d j : Json, OutMsg.stream j ∈ emitActions d ↔
      truthy (getField d respKey) = true ∧ j = (getField d respKey).getD Json.null) := by
  refine ⟨rfl, fun d => ?_, fun d j => ?_⟩
  · by_cases h1 : truthy (getField d respKey) <;>
      by_cases h2 : truthy (getField d doneKey) <;>
      simp [emitActions, h1, h2]
  · by_cases h1 : truthy (getField d respKey) <;>
      by_cases h2 : truthy (getField d doneKey) <;>
      simp [emitActions, h1, h2, eq_comm]

theorem runEv_append (evs1 evs2 : List Ev) (buf : List Char) :
    runEv buf (evs1 ++ evs2) =
      ((runEv (runEv buf evs1).1 evs2).1,
        (runEv buf evs1).2 ++ (runEv (runEv buf evs1).1 evs2).2) := by
  induction evs1 generalizing buf with
  | nil => simp [runEv]
  | cons e es ih => simp [runEv, ih, List.append_assoc]

theorem emitActions_no_error (d : Json) : OutMsg.errorMsg ∉ emitActions d := by
  by_cases h1 : truthy (getField d respKey) <;>
    by_cases h2 : truthy (getField d doneKey) <;>
    simp [emitActions, h1, h2]

theorem lineOut_no_error (l : List Char) : OutMsg.errorMsg ∉ lineOut l := by
  unfold lineOut
  cases h : decodeLine l with
  | none => simp
  | some d => exact emitActions_no_error d

theorem chunkOut_no_error (buf c : List Char) : OutMsg.errorMsg ∉ (chunkOut buf c).2 := by
  intro hmem
  obtain ⟨a, ha, hin⟩ := List.mem_flatten.mp hmem
  obtain ⟨l, _, rfl⟩ := List.mem_map.mp ha
  exact lineOut_no_error l hin

theorem flushOut_no_error (buf : List Char) : OutMsg.errorMsg ∉ flushOut buf := by
  unfold flushOut
  by_cases h : jsTrim buf = []
  · simp [h]
  · simp only [if_neg h]
    cases hp : jsonParse buf with
    | none => simp
    | some d => by_cases hd : truthy (getField d doneKey) <;> simp [hd]

theorem stepEv_error_iff (buf : List Char) (e : Ev) :
    OutMsg.errorMsg ∈ (stepEv buf e).2 ↔ e = Ev.fail := by
  cases e with
  | data c =>
    simp only [stepEv]
    exact ⟨fun h => absurd h (chunkOut_no_error buf c), fun h => nomatch h⟩
  | eof =>
    simp only [stepEv]
    exact ⟨fun h => absurd h (flushOut_no_error buf), fun h => nomatch h⟩
  | fail => simp [stepEv]

/-- C8: Transport error semantics: an `error` event of the byte stream
appends a distinct error frame — different from the terminal frame and
from every content frame — to whatever frames were already emitted (so
none are retracted), and the error frame appears in a run exactly when
the stream erred. -/
theorem C8_transport_error :
    (∀ evs : List Ev,
      (runEv [] (evs ++ [Ev.fail])).2 = (runEv [] evs).2 ++ [OutMsg.errorMsg]) ∧
    (∀ (buf : List Char) (evs : List Ev),
      OutMsg.errorMsg ∈ (runEv buf evs).2 ↔ Ev.fail ∈ evs) ∧
    OutMsg.errorMsg ≠ OutMsg.streamEnd ∧
    (∀ j : Json, OutMsg.errorMsg ≠ OutMsg.stream j) := by
  have hmem : ∀ (buf : List Char) (evs : List Ev),
      OutMsg.errorMsg ∈ (runEv buf evs).2 ↔ Ev.fail ∈ evs := by
    intro buf evs
    induction evs generalizing buf with
    | nil => simp [runEv]
    | cons e es ih =>
      show OutMsg.errorMsg ∈ (stepEv buf e).2 ++ (runEv (stepEv buf e).1 es).2 ↔ _
      rw [List.mem_append, stepEv_error_iff, ih, List.mem_cons]
      constructor
      · rintro (h | h)
        · exact Or.inl h.symm
        · exact Or.inr h
      · rintro (h | h)
        · exact Or.inl h.symm
        · exact Or.inr h
  refine ⟨fun evs => ?_, hmem, fun h => OutMsg.noConfusion h,
    fun j h => OutMsg.noConfusion h⟩
  rw [runEv_append]
  simp [runEv, stepEv]

/-! ### The connection registry

`server-activity.js` lines 11, 51–62: `clients` maps numeric ids to
objects holding the socket, a name, timestamps and address data.
`broadcast` (lines 24–34) iterates the map and sends to every entry
whose id differs from `excludeClientId` and whose socket is OPEN
(`readyState === 1`); `handleSetName` (lines 229–256) overwrites only
the `name` field, defaulting to `Client-<id>`. -/

/-- The part of a `ws` socket the registry logic reads. -/
structure WS where
  readyState : Nat

/-- One entry of the `clients` map (`server-activity.js` lines 53–60). -/
structure ClientInfo where
  ws : WS
  name : List Char
  connectedAt : Nat
  lastActivity : Nat
  ip : List Char
  userAgent : List Char

/-- `broadcast(message, excludeClientId)`: the ordered list of
(recipient id, payload) pairs actually sent. -/
def broadcastSends (reg : List (Nat × ClientInfo)) (message : Json)
    (excludeClientId : Option Nat) : List (Nat × Json) :=
  match reg with
  | [] => []
  | (id, client) :: rest =>
    if some id ≠ excludeClientId ∧ client.ws.readyState = 1 then
      (id, message) :: broadcastSends rest message excludeClientId
    else broadcastSends rest message excludeClientId

/-- C9: Broadcast exclusion invariant: a client id receives the
broadcast frame exactly when some registry entry carries that id, the
id differs from `excludeClientId`, and the entry's socket has
`readyState` 1; every frame sent carries the broadcast message. -/
theorem C9_broadcast_exclusion :
    ∀ (reg : List (Nat × ClientInfo)) (msg : Json) (ex : Option Nat),
      (∀ id : Nat,
        (∃ f ∈ broadcastSends reg msg ex, f.1 = id) ↔
          ∃ c : ClientInfo, (id, c) ∈ reg ∧ some id ≠ ex ∧ c.ws.readyState = 1) ∧
      (∀ f ∈ broadcastSends reg msg ex, f.2 = msg) := by
  intro reg msg ex
  constructor
  · intro id
    induction reg with
    | nil => simp [broadcastSends]
    | cons p rest ih =>
      obtain ⟨i, c⟩ := p
      by_cases hcond : some i ≠ ex ∧ c.ws.readyState = 1
      · rw [show broadcastSends ((i, c) :: rest) msg ex =
            (i, msg) :: broadcastSends rest msg ex by simp [broadcastSends, hcond]]
        simp only [List.mem_cons]
        constructor
        · rintro ⟨f, hf | hf, hfid⟩
          · subst hf
            exact ⟨c, Or.inl (by rw [← hfid]), hfid ▸ hcond.1, hcond.2⟩
          · obtain ⟨c', hc', h1, h2⟩ := ih.mp ⟨f, hf, hfid⟩
            exact ⟨c', Or.inr hc', h1, h2⟩
        · rintro ⟨c', hc' | hc', h1, h2⟩
          · have hid : id = i := congrArg Prod.fst hc'
            exact ⟨(i, msg), Or.inl rfl, hid.symm⟩
          · obtain ⟨f, hf, hfid⟩ := ih.mpr ⟨c', hc', h1, h2⟩
            exact ⟨f, Or.inr hf, hfid⟩
      · rw [show broadcastSends ((i, c) :: rest) msg ex =
            broadcastSends rest msg ex by simp [broadcastSends, hcond]]
        rw [ih]
        simp only [List.mem_cons]
        constructor
        · rintro ⟨c', hc', h1, h2⟩
          exact ⟨c', Or.inr hc', h1, h2⟩
        · rintro ⟨c', hc' | hc', h1, h2⟩
          · exfalso
            have hid : id = i := congrArg Prod.fst hc'
            have hcc : c' = c := congrArg Prod.snd hc'
            exact hcond ⟨hid ▸ h1, hcc ▸ h2⟩
          · exact ⟨c', hc', h1, h2⟩
  · induction reg with
    | nil => simp [broadcastSends]
    | cons p rest ih =>
      obtain ⟨i, c⟩ := p
      by_cases hcond : some i ≠ ex ∧ c.ws.readyState = 1
      · rw [show broadcastSends ((i, c) :: rest) msg ex =
            (i, msg) :: broadcastSends rest msg ex by simp [broadcastSends, hcond]]
        intro f hf
        rcases List.mem_cons.mp hf with rfl | hf
        · rfl
        · exact ih f hf
      · rw [show broadcastSends ((i, c) :: rest) msg ex =
            broadcastSends rest msg ex by simp [broadcastSends, hcond]]
        exact ih

/-- The default name assigned on connect: `` `Client-${clientId}` ``. -/
def defaultName (clientId : Nat) : List Char :=
  "Client-".toList ++ (Nat.repr clientId).toList

/-- `newName || `Client-${clientId}``: an absent or empty name falls
back to the default. -/
def resolveName (clientId : Nat) (newName : Option (List Char)) : List Char :=
  match newName with
  | some s => if s = [] then defaultName clientId else s
  | none => defaultName clientId

/-- `handleSetName(clientId, newName)` restricted to its registry
effect: when the client is registered, its entry's `name` field is
overwritten with the resolved name; nothing else changes. -/
def handleSetName (reg : List (Nat × ClientInfo)) (clientId : Nat)
    (newName : Option (List Char)) : List (Nat × ClientInfo) :=
  match reg.find? (fun p => p.1 = clientId) with
  | none => reg
  | some _ =>
    reg.map (fun p =>
      if p.1 = clientId then (p.1, { p.2 with name := resolveName clientId newName }) else p)

/-- C10: set_name frame effect and default: handling `set_name` for a
registered client updates only the `name` field of that client's
registry entry — `ws`, `connectedAt`, `ip` and the id are unchanged and
every other client's entry is untouched — and an absent or empty name
resolves to the default `Client-<id>`. -/
theorem C10_set_name_effect (reg : List (Nat × ClientInfo)) (id : Nat)
    (nn : Option (List Char)) (c : ClientInfo) (h : (id, c) ∈ reg) :
    ((id, { c with name := resolveName id nn }) ∈ handleSetName reg id nn) ∧
    (∀ (k : Nat) (d : ClientInfo), k ≠ id →
      ((k, d) ∈ handleSetName reg id nn ↔ (k, d) ∈ reg)) ∧
    ({ c with name := resolveName id nn }).ws = c.ws ∧
    ({ c with name := resolveName id nn }).connectedAt = c.connectedAt ∧
    ({ c with name := resolveName id nn }).ip = c.ip ∧
    resolveName id none = defaultName id ∧
    resolveName id (some []) = defaultName id := by
  cases hq : reg.find? (fun p => p.1 = id) with
  | none =>
    exfalso
    have := List.find?_eq_none.mp hq (id, c) h
    simp at this
  | some q =>
    have hres : handleSetName reg id nn =
        reg.map (fun p =>
          if p.1 = id then (p.1, { p.2 with name := resolveName id nn }) else p) := by
      unfold handleSetName
      rw [hq]
    refine ⟨?_, ?_, rfl, rfl, rfl, rfl, by simp [resolveName]⟩
    · rw [hres]
      have heq : (fun p : Nat × ClientInfo =>
          if p.1 = id then (p.1, { p.2 with name := resolveName id nn }) else p) (id, c) =
          (id, { c with name := resolveName id nn }) := by simp
      exact heq ▸ List.mem_map_of_mem _ h
    · intro k d hk
      rw [hres]
      constructor
      · intro hmem
        obtain ⟨p, hp, hpe⟩ := List.mem_map.mp hmem
        by_cases hpid : p.1 = id
        · rw [if_pos hpid] at hpe
          have : p.1 = k := congrArg Prod.fst hpe
          exact absurd (this ▸ hpid) hk
        · rw [if_neg hpid] at hpe
          rwa [hpe] at hp
      · intro hmem
        have heq : (fun p : Nat × ClientInfo =>
            if p.1 = id then (p.1, { p.2 with name := resolveName id nn }) else p) (k, d) =
            (k, d) := by simp [hk]
        exact heq ▸ List.mem_map_of_mem _ hmem

/-- A concrete socket in the OPEN state. -/
def sampleWS : WS := ⟨1⟩

/-- A concrete registry entry. -/
def sampleClient : ClientInfo :=
  ⟨sampleWS, "Alice".toList, 5, 6, "127.0.0.1".toList, "agent".toList⟩

/-- Witness for C10 at a concrete registry: renaming client 1 with an
absent name stores the default name while the rest of the entry keeps
its fields. -/
theorem C10_set_name_witness :
    ((1 : Nat), { sampleClient with name := resolveName 1 none }) ∈
      handleSetName [(1, sampleClient)] 1 none :=
  (C10_set_name_effect [(1, sampleClient)] 1 none sampleClient
    (List.mem_singleton.mpr rfl)).1
